import Mathlib

/-!
Verification of the yadrl experience-storage core
(`yadrl/common/memory.py`, `yadrl/common/replay_memory.py`) and the
categorical distributional projection (`yadrl/agents/dqn.py`).

Conventions of the embedding:
* a numpy array of per-element values is a `List` of its rows (one abstract
  value per row, rationals where the claims need arithmetic);
* operations that can raise (`raise ValueError`, numpy `IndexError`,
  `np.random.randint` with an empty range) return `Except String`;
* `np.random.randint(high, size=n)` is modelled by an oracle of natural
  numbers reduced modulo `high`, so every value in `[0, high)` is reachable
  and every produced value lies in `[0, high)`.
-/

namespace Yadrl

/-- Sequencing of fallible steps: the first raised error propagates. -/
def eseq {α β : Type} (x : Except String α) (f : α → Except String β) :
    Except String β :=
  match x with
  | .ok a => f a
  | .error e => .error e

theorem eseq_ok (a : α) (f : α → Except String β) :
    eseq (.ok a) f = f a := rfl

theorem eseq_error (e : String) (f : α → Except String β) :
    eseq (.error e) f = .error e := rfl

/-! ## RingBuffer (memory.py lines 15-71)

`_container` is `np.zeros((capacity,) + dimension)`; one row is one abstract
element, the all-zero row is the `zero` field. `_size` is `size`. -/

structure RingBuffer (α : Type) where
  capacity : Nat
  zero : α
  container : List α
  size : Nat
  deriving Repr, DecidableEq

namespace RingBuffer

/-- `RingBuffer.__init__`: zero container, size 0. -/
def init (capacity : Nat) (zero : α) : RingBuffer α :=
  { capacity := capacity, zero := zero,
    container := List.replicate capacity zero, size := 0 }

/-- `np.roll(container, -1, 0)`: row `i` moves to row `i-1`, row `0` wraps
to the end. -/
def roll (l : List α) : List α := l.drop 1 ++ l.take 1

/-- `RingBuffer.add` (memory.py lines 24-32).  Not full: write at index
`size`, increment `size`.  Full: roll by -1 and overwrite the last row
(`container[capacity - 1, :] = value`; on a `capacity = 0` array numpy
raises `IndexError` for that row write).  Otherwise `raise ValueError`. -/
def add (b : RingBuffer α) (v : α) : Except String (RingBuffer α) :=
  if b.size < b.capacity then
    .ok { b with container := b.container.set b.size v, size := b.size + 1 }
  else if b.size = b.capacity then
    if b.capacity = 0 then .error "IndexError"
    else .ok { b with container := (roll b.container).set (b.capacity - 1) v }
  else .error "ValueError"

/-- A sequence of `add` calls, left to right. -/
def addAll (b : RingBuffer α) (vs : List α) : Except String (RingBuffer α) :=
  vs.foldl (fun acc v => eseq acc (fun b => b.add v)) (.ok b)

/-- `RingBuffer.reset` (memory.py lines 42-43): reassigns `_container` to a
fresh zero array.  The source does not touch `_size`. -/
def reset (b : RingBuffer α) : RingBuffer α :=
  { b with container := List.replicate b.capacity b.zero }

/-- `RingBuffer.__getitem__`. -/
def get (b : RingBuffer α) (i : Nat) : α := b.container.getD i b.zero

end RingBuffer

/-- The container contents determined by the sequence `vs` of added values:
while under capacity, the values so far followed by zero padding; once past
capacity, the most recent `capacity` values in insertion order. -/
def logicalContents (capacity : Nat) (zero : α) (vs : List α) : List α :=
  if vs.length ≤ capacity then vs ++ List.replicate (capacity - vs.length) zero
  else vs.drop (vs.length - capacity)

theorem set_append_length (xs : List α) (y v : α) (t : List α) :
    (xs ++ y :: t).set xs.length v = xs ++ v :: t := by
  induction xs with
  | nil => rfl
  | cons a xs ih => simp [List.set, ih]

theorem roll_set_last (c : List α) (v : α) (n : Nat) (hlen : c.length = n + 1) :
    (RingBuffer.roll c).set n v = c.drop 1 ++ [v] := by
  cases c with
  | nil => simp at hlen
  | cons a t =>
      have ht : t.length = n := by simpa using hlen
      simp [RingBuffer.roll, ← ht, set_append_length]

theorem length_logicalContents (capacity : Nat) (zero : α) (vs : List α) :
    (logicalContents capacity zero vs).length = capacity := by
  unfold logicalContents
  split <;> simp <;> omega

theorem add_notfull (b : RingBuffer α) (v : α) (h : b.size < b.capacity) :
    b.add v = .ok { b with container := b.container.set b.size v,
                           size := b.size + 1 } := by
  unfold RingBuffer.add
  rw [if_pos h]

theorem add_full (b : RingBuffer α) (v : α) (hcap : b.capacity ≠ 0)
    (hsz : b.size = b.capacity) :
    b.add v = .ok { b with
      container := (RingBuffer.roll b.container).set (b.capacity - 1) v } := by
  unfold RingBuffer.add
  rw [if_neg (by omega), if_pos hsz, if_neg hcap]

/-- Characterization of a run of `add` calls from a fresh buffer: every call
succeeds, `size` is `min (number of adds) capacity`, and the container holds
`logicalContents`. -/
theorem addAll_init_eq (capacity : Nat) (hc : 1 ≤ capacity) (zero : α)
    (vs : List α) :
    RingBuffer.addAll (RingBuffer.init capacity zero) vs =
      .ok { capacity := capacity, zero := zero,
            container := logicalContents capacity zero vs,
            size := min vs.length capacity } := by
  induction vs using List.reverseRecOn with
  | nil =>
      simp [RingBuffer.addAll, RingBuffer.init, logicalContents]
  | append_singleton xs x ih =>
      have hstep : RingBuffer.addAll (RingBuffer.init capacity zero) (xs ++ [x]) =
          eseq (RingBuffer.addAll (RingBuffer.init capacity zero) xs)
            (fun b => b.add x) := by
        simp [RingBuffer.addAll, List.foldl_append]
      rw [hstep, ih]
      by_cases hlt : xs.length < capacity
      · -- under capacity: append branch of `add`
        have hmin : min xs.length capacity = xs.length := by omega
        have hpad : capacity - xs.length = (capacity - (xs.length + 1)) + 1 := by
          omega
        have hcont : logicalContents capacity zero xs =
            xs ++ zero :: List.replicate (capacity - (xs.length + 1)) zero := by
          unfold logicalContents
          rw [if_pos (by omega), hpad]
          simp [List.replicate_succ]
        rw [eseq_ok, add_notfull _ _ (by simpa [hmin] using hlt)]
        have hset := set_append_length xs zero x
          (List.replicate (capacity - (xs.length + 1)) zero)
        simp only [hmin, hcont, hset]
        have hout : logicalContents capacity zero (xs ++ [x]) =
            xs ++ x :: List.replicate (capacity - (xs.length + 1)) zero := by
          unfold logicalContents
          rw [if_pos (by simp; omega)]
          simp
        rw [hout]
        have hmin2 : min (xs ++ [x]).length capacity = xs.length + 1 := by
          simp; omega
        rw [hmin2]
      · -- at capacity: roll-and-overwrite branch of `add`
        have hge : capacity ≤ xs.length := by omega
        have hmin : min xs.length capacity = capacity := by omega
        have hlen : (logicalContents capacity zero xs).length =
            (capacity - 1) + 1 := by
          rw [length_logicalContents]; omega
        rw [eseq_ok, add_full _ x (by show capacity ≠ 0; omega)
          (by show min xs.length capacity = capacity; omega)]
        simp only
        rw [roll_set_last _ x (capacity - 1) hlen]
        have hdrop : (logicalContents capacity zero xs).drop 1 =
            xs.drop (xs.length - (capacity - 1)) := by
          unfold logicalContents
          by_cases heq : xs.length ≤ capacity
          · rw [if_pos heq]
            have h0 : capacity - xs.length = 0 := by omega
            have h1 : xs.length - (capacity - 1) = 1 := by omega
            rw [h0, h1]
            simp
          · rw [if_neg heq]
            rw [List.drop_drop]
            congr 1
            omega
        rw [hdrop]
        have hout : logicalContents capacity zero (xs ++ [x]) =
            xs.drop (xs.length - (capacity - 1)) ++ [x] := by
          unfold logicalContents
          by_cases heq : (xs ++ [x]).length ≤ capacity
          · exfalso; simp at heq; omega
          · rw [if_neg heq]
            have h1 : (xs ++ [x]).length - capacity ≤ xs.length := by
              simp; omega
            rw [List.drop_append_of_le_length h1]
            congr 2
            simp; omega
        rw [hout]
        have hmin2 : min (xs ++ [x]).length capacity = capacity := by
          simp; omega
        rw [hmin, hmin2]

/-- Single `add` on a buffer in logical form advances the logical contents
by one value. -/
theorem add_logical (n : Nat) (hc : 1 ≤ n) (zero : α) (vs : List α) (v : α) :
    RingBuffer.add
      { capacity := n, zero := zero, container := logicalContents n zero vs,
        size := min vs.length n } v =
      .ok { capacity := n, zero := zero,
            container := logicalContents n zero (vs ++ [v]),
            size := min (vs ++ [v]).length n } := by
  have h1 := addAll_init_eq n hc zero (vs ++ [v])
  have h2 := addAll_init_eq n hc zero vs
  have hstep : RingBuffer.addAll (RingBuffer.init n zero) (vs ++ [v]) =
      eseq (RingBuffer.addAll (RingBuffer.init n zero) vs)
        (fun b => b.add v) := by
    simp [RingBuffer.addAll, List.foldl_append]
  rw [h2] at hstep
  rw [hstep] at h1
  simpa [eseq_ok] using h1

/-- C1: starting from a fresh `RingBuffer` of capacity `c ≥ 1`, a sequence of
more than `c` calls to `add` never raises (every call returns `ok`), and
afterwards `size = c` and the container rows are exactly the most recent `c`
added values in insertion order: slot `0` is the oldest surviving element and
slot `c-1` the most recent, so each add past capacity evicted exactly the
oldest element. -/
theorem ringBuffer_add_overflow_fifo (capacity : Nat) (zero : α)
    (vs : List α) (hc : 1 ≤ capacity) (hlen : capacity < vs.length) :
    RingBuffer.addAll (RingBuffer.init capacity zero) vs =
      .ok { capacity := capacity, zero := zero,
            container := vs.drop (vs.length - capacity), size := capacity } := by
  rw [addAll_init_eq capacity hc zero vs]
  have hmin : min vs.length capacity = capacity := by omega
  rw [hmin]
  unfold logicalContents
  rw [if_neg (by omega)]

/-- Witness for C1: capacity 2, adds `[10, 20, 30]` — all succeed, final size
is 2 and the container is `[20, 30]`. -/
theorem ringBuffer_add_overflow_fifo_witness :
    RingBuffer.addAll (RingBuffer.init 2 (0 : ℤ)) [10, 20, 30] =
      .ok { capacity := 2, zero := 0, container := [20, 30], size := 2 } :=
  ringBuffer_add_overflow_fifo 2 0 [10, 20, 30] (by decide) (by decide)

/-- C7 (falsified by the code): `RingBuffer.reset` reassigns `_container` to
a fresh zero array but never clears `_size`, so a capacity-1 buffer holding
one element still reports `size = 1` immediately after `reset()`, not 0. -/
theorem ringBuffer_reset_keeps_size :
    (RingBuffer.add (RingBuffer.init 1 (0 : ℤ)) 5).map
      (fun b => b.reset.size) = .ok 1 := rfl

/-! ## Rollout (memory.py lines 132-177)

States, actions and rewards are abstracted to one rational per entry. -/

structure Transition where
  state : ℚ
  action : ℚ
  reward : ℚ
  nextState : ℚ
  done : Bool
  deriving Repr, DecidableEq

structure Rollout where
  capacity : Nat
  discount : ℚ
  stateBuffer : RingBuffer ℚ
  actionBuffer : RingBuffer ℚ
  rewardBuffer : RingBuffer ℚ
  size : Nat
  deriving Repr, DecidableEq

namespace Rollout

/-- `Rollout.__init__`. -/
def init (capacity : Nat) (discount : ℚ) : Rollout :=
  { capacity := capacity, discount := discount,
    stateBuffer := RingBuffer.init capacity 0,
    actionBuffer := RingBuffer.init capacity 0,
    rewardBuffer := RingBuffer.init capacity 0,
    size := 0 }

/-- `Rollout.ready` (memory.py 146-148). -/
def ready (r : Rollout) : Bool := r.size == r.capacity

/-- `Rollout.push` (memory.py 150-157): adds to the three buffers and caps
`_size` at capacity. -/
def push (r : Rollout) (s a rew : ℚ) : Except String Rollout :=
  eseq (r.stateBuffer.add s) fun sb =>
  eseq (r.actionBuffer.add a) fun ab =>
  eseq (r.rewardBuffer.add rew) fun rb =>
  .ok { r with stateBuffer := sb, actionBuffer := ab, rewardBuffer := rb,
               size := min (r.size + 1) r.capacity }

/-- `Rollout._compute_cumulative_reward` (memory.py 173-177). -/
def computeCumulativeReward (r : Rollout) : ℚ :=
  (List.range r.capacity).foldl
    (fun acc t => acc + r.discount ^ t * r.rewardBuffer.get t) 0

/-- `Rollout.get_transition` (memory.py 159-166): pushes the new triple,
then returns the n-step transition once the window is at capacity, else
`None`. -/
def getTransition (r : Rollout) (s a rew nextState : ℚ) (done : Bool) :
    Except String (Option Transition × Rollout) :=
  eseq (r.push s a rew) fun r' =>
  if r'.size = r'.capacity then
    .ok (some { state := r'.stateBuffer.get 0,
                action := r'.actionBuffer.get 0,
                reward := r'.computeCumulativeReward,
                nextState := nextState, done := done }, r')
  else
    .ok (none, r')

/-- `Rollout.reset` (memory.py 168-171): resets the three ring buffers (each
of which zeroes its container without touching its `_size`); the source does
not touch `Rollout._size` either. -/
def reset (r : Rollout) : Rollout :=
  { r with stateBuffer := r.stateBuffer.reset,
           actionBuffer := r.actionBuffer.reset,
           rewardBuffer := r.rewardBuffer.reset }

end Rollout

/-- C6 (falsified by the code): `Rollout.reset` clears no size counter, so
after filling a 2-step window and calling `reset()` the accumulator still
reports `ready = true`, and the very next `get_transition` call returns a
transition instead of `None` (the claim requires `None` for the next
`n-1 = 1` calls). -/
theorem rollout_reset_still_ready :
    (eseq ((Rollout.init 2 1).getTransition 1 1 1 1 false) fun x1 =>
     eseq (x1.2.getTransition 2 2 2 2 false) fun x2 =>
     eseq ((x2.2.reset).getTransition 3 3 3 3 false) fun x3 =>
     .ok (x2.2.reset.ready, x3.1)) =
      .ok (true, some { state := 0, action := 0, reward := 3,
                        nextState := 3, done := false }) := by
  simp [Rollout.init, Rollout.getTransition, Rollout.push, Rollout.reset,
        Rollout.ready, Rollout.computeCumulativeReward, RingBuffer.init,
        RingBuffer.add, RingBuffer.reset, RingBuffer.get, RingBuffer.roll,
        eseq, List.range_succ, List.replicate, Transition.mk.injEq]

theorem eseq_assoc (x : Except String α) (f : α → Except String β)
    (g : β → Except String γ) :
    eseq (eseq x f) g = eseq x (fun a => eseq (f a) g) := by
  cases x <;> rfl

/-- Inputs of one `get_transition` call. -/
structure Call where
  state : ℚ
  action : ℚ
  reward : ℚ
  nextState : ℚ
  done : Bool
  deriving Repr, DecidableEq, Inhabited

/-- A sequence of `get_transition` calls from left to right, collecting each
call's return value. -/
def runCalls (r : Rollout) (cs : List Call) :
    Except String (List (Option Transition) × Rollout) :=
  match cs with
  | [] => .ok ([], r)
  | c :: rest =>
      eseq (r.getTransition c.state c.action c.reward c.nextState c.done)
        fun x =>
      eseq (runCalls x.2 rest) fun y =>
      .ok (x.1 :: y.1, y.2)

theorem runCalls_append (r : Rollout) (cs : List Call) (c : Call) :
    runCalls r (cs ++ [c]) =
      eseq (runCalls r cs) fun x =>
      eseq (x.2.getTransition c.state c.action c.reward c.nextState c.done)
        fun y => .ok (x.1 ++ [y.1], y.2) := by
  induction cs generalizing r with
  | nil =>
      cases hgt : r.getTransition c.state c.action c.reward c.nextState c.done
        <;> simp [runCalls, hgt, eseq]
  | cons c0 rest ih =>
      show eseq (r.getTransition c0.state c0.action c0.reward c0.nextState
          c0.done) (fun x => eseq (runCalls x.2 (rest ++ [c]))
            fun y => .ok (x.1 :: y.1, y.2)) =
        eseq (eseq (r.getTransition c0.state c0.action c0.reward c0.nextState
          c0.done) (fun x => eseq (runCalls x.2 rest)
            fun y => .ok (x.1 :: y.1, y.2)))
          (fun x => eseq (x.2.getTransition c.state c.action c.reward
            c.nextState c.done) fun y => .ok (x.1 ++ [y.1], y.2))
      rw [eseq_assoc]
      congr 1
      funext x
      rw [ih]
      simp only [eseq_assoc, eseq_ok]
      simp

/-- The rollout state reached after a sequence of `get_transition` calls:
all three windows hold the logical contents of the streams seen so far, and
the size counters are capped at the window length. -/
def logicalBuffer (n : Nat) (vs : List ℚ) : RingBuffer ℚ :=
  { capacity := n, zero := 0,
    container := logicalContents n 0 vs,
    size := min vs.length n }

def rolloutAfter (n : Nat) (γ : ℚ) (cs : List Call) : Rollout :=
  { capacity := n, discount := γ,
    stateBuffer := logicalBuffer n (cs.map Call.state),
    actionBuffer := logicalBuffer n (cs.map Call.action),
    rewardBuffer := logicalBuffer n (cs.map Call.reward),
    size := min cs.length n }

/-- The n-step discounted cumulative reward over the window as it stands at
the `k`-th call (0-based): rewards of calls `k+1-n .. k`, oldest first. -/
def nstepReward (n : Nat) (γ : ℚ) (cs : List Call) (k : Nat) : ℚ :=
  ∑ t in Finset.range n, γ ^ t * (cs.getD (k + 1 - n + t) default).reward

/-- The return value the claim predicts for the `k`-th call (0-based):
`none` for the first `n-1` calls, afterwards the transition whose state and
action are the oldest window entry, whose reward is the discounted window
sum, and whose next-state and done flag are the caller-supplied values. -/
def outSpec (n : Nat) (γ : ℚ) (cs : List Call) (k : Nat) : Option Transition :=
  if k + 1 < n then none
  else some { state := (cs.getD (k + 1 - n) default).state,
              action := (cs.getD (k + 1 - n) default).action,
              reward := nstepReward n γ cs k,
              nextState := (cs.getD k default).nextState,
              done := (cs.getD k default).done }

theorem push_rolloutAfter (n : Nat) (γ : ℚ) (cs : List Call) (c : Call)
    (hn : 1 ≤ n) :
    (rolloutAfter n γ cs).push c.state c.action c.reward =
      .ok (rolloutAfter n γ (cs ++ [c])) := by
  unfold Rollout.push rolloutAfter logicalBuffer
  rw [add_logical n hn 0 (cs.map Call.state) c.state, eseq_ok,
      add_logical n hn 0 (cs.map Call.action) c.action, eseq_ok,
      add_logical n hn 0 (cs.map Call.reward) c.reward, eseq_ok]
  simp only [List.map_append, List.map_cons, List.map_nil, List.length_map,
    List.length_append, List.length_cons, List.length_nil]
  have h1 : min (min cs.length n + 1) n = min (cs.length + 1) n := by omega
  rw [h1]

theorem getD_eq_getElem? (l : List α) (i : Nat) (d : α) :
    l.getD i d = (l[i]?).getD d := List.getD_eq_getElem?_getD l i d

theorem logicalContents_getD (n : Nat) (hn : 1 ≤ n) (zero d : α)
    (vs : List α) (h : n ≤ vs.length) (t : Nat) (ht : t < n) :
    (logicalContents n zero vs).getD t d = vs.getD (vs.length - n + t) d := by
  unfold logicalContents
  by_cases hle : vs.length ≤ n
  · have hlen : vs.length = n := by omega
    have h0 : n - vs.length = 0 := by omega
    have h1 : vs.length - n = 0 := by omega
    rw [if_pos hle, h0, h1]
    simp
  · rw [if_neg hle]
    rw [getD_eq_getElem?, getD_eq_getElem? vs, List.getElem?_drop]

theorem getD_map_call (f : Call → ℚ) (cs : List Call) (i : Nat)
    (hi : i < cs.length) (d : ℚ) :
    (cs.map f).getD i d = f (cs.getD i default) := by
  rw [getD_eq_getElem? (cs.map f), List.getElem?_map,
      List.getElem?_eq_getElem hi, List.getD_eq_getElem cs default hi]
  rfl

theorem foldl_range_add (n : Nat) (f : Nat → ℚ) :
    (List.range n).foldl (fun acc t => acc + f t) 0 =
      ∑ t in Finset.range n, f t := by
  suffices h : ∀ a : ℚ, (List.range n).foldl (fun acc t => acc + f t) a =
      a + ∑ t in Finset.range n, f t by
    simpa using h 0
  induction n with
  | zero => simp
  | succ m ih =>
      intro a
      rw [List.range_succ, List.foldl_append, ih a, Finset.sum_range_succ]
      simp [add_assoc]

theorem rolloutAfter_getBuf0 (n : Nat) (cs : List Call)
    (f : Call → ℚ) (hn : 1 ≤ n) (h : n ≤ cs.length) :
    ((logicalContents n (0 : ℚ) (cs.map f)).getD 0 0) =
      f (cs.getD (cs.length - n) default) := by
  have hlm : (cs.map f).length = cs.length := by simp
  rw [logicalContents_getD n hn 0 0 _ (by omega) 0 (by omega), hlm,
      Nat.add_zero, getD_map_call f _ _ (by omega)]

theorem rolloutAfter_cum (n : Nat) (γ : ℚ) (cs : List Call)
    (hn : 1 ≤ n) (h : n ≤ cs.length) :
    (rolloutAfter n γ cs).computeCumulativeReward =
      ∑ t in Finset.range n, γ ^ t * (cs.getD (cs.length - n + t) default).reward := by
  show (List.range n).foldl
      (fun acc t => acc + γ ^ t *
        (logicalContents n (0 : ℚ) (cs.map Call.reward)).getD t 0) 0 = _
  rw [foldl_range_add]
  apply Finset.sum_congr rfl
  intro t htm
  have ht : t < n := Finset.mem_range.mp htm
  have hlm : (cs.map Call.reward).length = cs.length := by simp
  rw [logicalContents_getD n hn 0 0 _ (by omega) t ht, hlm,
      getD_map_call Call.reward _ _ (by omega)]

/-- C3: over any sequence of `get_transition` calls on a fresh `Rollout` of
window length `n ≥ 1` and discount `γ`, no call raises, the `k`-th call
(0-based) returns `None` while `k + 1 < n`, and from the `n`-th call onward
returns the transition whose state and action are the oldest window entry
(call `k+1-n`), whose reward is `Σ_{t<n} γ^t · reward[k+1-n+t]` over the
current window (oldest reward first), and whose next-state and done flag are
the caller-supplied values of call `k`. -/
theorem rollout_nstep_schedule (n : Nat) (γ : ℚ) (cs : List Call)
    (hn : 1 ≤ n) :
    runCalls (Rollout.init n γ) cs =
      .ok ((List.range cs.length).map (outSpec n γ cs),
           rolloutAfter n γ cs) := by
  induction cs using List.reverseRecOn with
  | nil =>
      simp [runCalls, rolloutAfter, Rollout.init, RingBuffer.init,
        logicalBuffer, logicalContents]
  | append_singleton cs c ih =>
      rw [runCalls_append, ih, eseq_ok]
      unfold Rollout.getTransition
      rw [push_rolloutAfter n γ cs c hn, eseq_ok]
      have hout : (List.range (cs ++ [c]).length).map (outSpec n γ (cs ++ [c])) =
          (List.range cs.length).map (outSpec n γ cs) ++
            [outSpec n γ (cs ++ [c]) cs.length] := by
        rw [List.length_append, List.length_cons, List.length_nil,
            List.range_succ, List.map_append, List.map_cons, List.map_nil]
        congr 1
        apply List.map_congr_left
        intro k hk
        have hk' : k < cs.length := List.mem_range.mp hk
        unfold outSpec nstepReward
        by_cases hlt : k + 1 < n
        · rw [if_pos hlt, if_pos hlt]
        · rw [if_neg hlt, if_neg hlt]
          have hgd : ∀ i, i ≤ k →
              (cs ++ [c]).getD i default = cs.getD i default := by
            intro i hi
            rw [getD_eq_getElem?, getD_eq_getElem?,
                List.getElem?_append_left (by omega)]
          congr 2
          · rw [hgd _ (by omega)]
          · rw [hgd _ (by omega)]
          · apply Finset.sum_congr rfl
            intro t htm
            have ht : t < n := Finset.mem_range.mp htm
            rw [hgd _ (by omega)]
          · rw [hgd _ (by omega)]
          · rw [hgd _ (by omega)]
      rw [hout]
      by_cases hfull : n ≤ cs.length + 1
      · have hsz : (rolloutAfter n γ (cs ++ [c])).size =
            (rolloutAfter n γ (cs ++ [c])).capacity := by
          show min (cs ++ [c]).length n = n
          simp; omega
        rw [if_pos hsz, eseq_ok]
        have hlen1 : (cs ++ [c]).length = cs.length + 1 := by simp
        have hspec : outSpec n γ (cs ++ [c]) cs.length =
            some { state := ((cs ++ [c]).getD (cs.length + 1 - n) default).state,
                   action := ((cs ++ [c]).getD (cs.length + 1 - n) default).action,
                   reward := nstepReward n γ (cs ++ [c]) cs.length,
                   nextState := ((cs ++ [c]).getD cs.length default).nextState,
                   done := ((cs ++ [c]).getD cs.length default).done } := by
          unfold outSpec
          rw [if_neg (by omega)]
        rw [hspec]
        have hgetlast : (cs ++ [c]).getD cs.length default = c := by
          rw [getD_eq_getElem?, List.getElem?_append_right (by omega)]
          simp
        have hstate : (rolloutAfter n γ (cs ++ [c])).stateBuffer.get 0 =
            ((cs ++ [c]).getD (cs.length + 1 - n) default).state := by
          show (logicalContents n (0 : ℚ) ((cs ++ [c]).map Call.state)).getD 0 0 = _
          rw [rolloutAfter_getBuf0 n _ Call.state hn (by omega), hlen1]
        have haction : (rolloutAfter n γ (cs ++ [c])).actionBuffer.get 0 =
            ((cs ++ [c]).getD (cs.length + 1 - n) default).action := by
          show (logicalContents n (0 : ℚ) ((cs ++ [c]).map Call.action)).getD 0 0 = _
          rw [rolloutAfter_getBuf0 n _ Call.action hn (by omega), hlen1]
        have hreward : (rolloutAfter n γ (cs ++ [c])).computeCumulativeReward =
            nstepReward n γ (cs ++ [c]) cs.length := by
          rw [rolloutAfter_cum n γ _ hn (by omega)]
          unfold nstepReward
          apply Finset.sum_congr rfl
          intro t htm
          rw [hlen1]
        rw [hstate, haction, hreward, hgetlast]
      · have hsz : ¬ ((rolloutAfter n γ (cs ++ [c])).size =
            (rolloutAfter n γ (cs ++ [c])).capacity) := by
          show ¬ (min (cs ++ [c]).length n = n)
          simp; omega
        rw [if_neg hsz, eseq_ok]
        have hspec : outSpec n γ (cs ++ [c]) cs.length = none := by
          unfold outSpec
          rw [if_pos (by omega)]
        rw [hspec]

/-- Concrete input for the C3 witness: `n = 3`, `γ = 1/2`, three calls with
unit rewards (the spec example). -/
def callsEx : List Call :=
  [{ state := 1, action := 10, reward := 1, nextState := 5, done := false },
   { state := 2, action := 20, reward := 1, nextState := 6, done := false },
   { state := 3, action := 30, reward := 1, nextState := 7, done := true }]

/-- Witness for C3: the first two calls return `None`, the third returns the
oldest state/action with cumulative reward `1 + 1/2 + 1/4 = 7/4` and the
caller-supplied next-state/done. -/
theorem rollout_nstep_schedule_witness :
    runCalls (Rollout.init 3 (1/2)) callsEx =
      .ok ([none, none,
            some { state := 1, action := 10, reward := 7/4, nextState := 7,
                   done := true }],
           rolloutAfter 3 (1/2) callsEx) := by
  have h := rollout_nstep_schedule 3 (1/2) callsEx (by norm_num)
  rw [h]
  norm_num [callsEx, outSpec, nstepReward, Finset.sum_range_succ,
    List.range_succ, List.getD_cons_zero, List.getD_cons_succ]

/-! ## ReplayMemory (memory.py lines 74-129) -/

/-- `np.random.randint(high, size=count)` via an oracle `draws`: numpy
validates `high ≥ 1` up front and raises `ValueError` otherwise (even for an
empty request), then returns `count` values in `[0, high)`. -/
def randint (high : Int) (count : Nat) (draws : Nat → Nat) :
    Except String (List Nat) :=
  if high ≤ 0 then .error "ValueError"
  else .ok ((List.range count).map (fun i => draws i % high.toNat))

structure ReplayMemory where
  capacity : Nat
  combined : Bool
  stateBuffer : RingBuffer ℚ
  actionBuffer : RingBuffer ℚ
  rewardBuffer : RingBuffer ℚ
  nextStateBuffer : RingBuffer ℚ
  terminalBuffer : RingBuffer ℚ
  deriving Repr, DecidableEq

/-- The batch assembled by `ReplayMemory.sample`, one gathered array per
field. -/
structure Batch where
  state : List ℚ
  action : List ℚ
  reward : List ℚ
  nextState : List ℚ
  done : List ℚ
  deriving Repr, DecidableEq

namespace ReplayMemory

/-- `ReplayMemory.__init__` (memory.py 75-89), buffer part; the class
attribute assignment `RingBuffer.TORCH_BACKEND = torch_backend` is modelled
separately (see `mkReplayMemory`). -/
def init (capacity : Nat) (combined : Bool) : ReplayMemory :=
  { capacity := capacity, combined := combined,
    stateBuffer := RingBuffer.init capacity 0,
    actionBuffer := RingBuffer.init capacity 0,
    rewardBuffer := RingBuffer.init capacity 0,
    nextStateBuffer := RingBuffer.init capacity 0,
    terminalBuffer := RingBuffer.init capacity 0 }

/-- `ReplayMemory.size` (memory.py 119-121). -/
def size (m : ReplayMemory) : Nat := m.stateBuffer.size

/-- `ReplayMemory.push` (memory.py 91-101): five adds in lock step. -/
def push (m : ReplayMemory) (s a rew ns term : ℚ) :
    Except String ReplayMemory :=
  eseq (m.stateBuffer.add s) fun sb =>
  eseq (m.actionBuffer.add a) fun ab =>
  eseq (m.rewardBuffer.add rew) fun rb =>
  eseq (m.nextStateBuffer.add ns) fun nb =>
  eseq (m.terminalBuffer.add term) fun tb =>
  .ok { m with stateBuffer := sb, actionBuffer := ab, rewardBuffer := rb,
               nextStateBuffer := nb, terminalBuffer := tb }

/-- Index selection of `ReplayMemory.sample` (memory.py 103-110): decrement
`batch_size` when combined, call `np.random.randint(size - 1, ...)`, then
append the newest index `size - 1` when combined.  Callers pass
`batch_size ≥ 1`. -/
def sampleIdxs (m : ReplayMemory) (batchSize : Nat) (draws : Nat → Nat) :
    Except String (List Nat) :=
  eseq (randint ((m.size : Int) - 1)
          (if m.combined then batchSize - 1 else batchSize) draws) fun idxs =>
  .ok (if m.combined then idxs ++ [m.size - 1] else idxs)

/-- `ReplayMemory.sample` (memory.py 103-117): gather every field at the
selected indices. -/
def sample (m : ReplayMemory) (batchSize : Nat) (draws : Nat → Nat) :
    Except String Batch :=
  eseq (m.sampleIdxs batchSize draws) fun idxs =>
  .ok { state := idxs.map m.stateBuffer.get,
        action := idxs.map m.actionBuffer.get,
        reward := idxs.map m.rewardBuffer.get,
        nextState := idxs.map m.nextStateBuffer.get,
        done := idxs.map m.terminalBuffer.get }

end ReplayMemory

/-- A concrete non-combined memory of size 2. -/
def memSize2 : ReplayMemory :=
  { capacity := 2, combined := false,
    stateBuffer := { capacity := 2, zero := 0, container := [1, 2], size := 2 },
    actionBuffer := { capacity := 2, zero := 0, container := [1, 2], size := 2 },
    rewardBuffer := { capacity := 2, zero := 0, container := [1, 2], size := 2 },
    nextStateBuffer := { capacity := 2, zero := 0, container := [2, 3], size := 2 },
    terminalBuffer := { capacity := 2, zero := 0, container := [0, 0], size := 2 } }

/-- A concrete combined memory of size 2. -/
def memSize2C : ReplayMemory := { memSize2 with combined := true }

/-- C5 (counterexample to the claim as stated): in non-combined mode with
`size == 1` and `batch_size == 1`, `sample` raises `ValueError`
(`np.random.randint(0, ...)` has an empty range), although the claim says
`sample` succeeds whenever `size ≥ 1` in non-combined mode. -/
theorem sample_size_one_raises :
    eseq ((ReplayMemory.init 2 false).push 1 1 1 2 0)
      (fun m => m.sample 1 (fun i => 0)) = .error "ValueError" := rfl

/-- C5 (amended): `sample` raises exactly when the buffer holds at most one
transition: for every memory state and `batch_size ≥ 1`, `sample` raises
`ValueError` when `size ≤ 1` (so in particular when `size == 0`), and
succeeds whenever `size ≥ 2`, in combined and non-combined mode alike —
sampling is with replacement, so `batch_size` may exceed `size`. -/
theorem sample_succeeds_iff_size_ge_two (m : ReplayMemory) (batchSize : Nat)
    (draws : Nat → Nat) (hbs : 1 ≤ batchSize) :
    (m.size ≤ 1 → m.sample batchSize draws = .error "ValueError") ∧
    (2 ≤ m.size → ∃ b, m.sample batchSize draws = .ok b) := by
  constructor
  · intro h
    unfold ReplayMemory.sample ReplayMemory.sampleIdxs randint
    rw [if_pos (show ((m.size : Int) - 1) ≤ 0 by omega)]
    simp [eseq]
  · intro h
    unfold ReplayMemory.sample ReplayMemory.sampleIdxs randint
    rw [if_neg (show ¬ ((m.size : Int) - 1) ≤ 0 by omega)]
    simp [eseq]

/-- Witness for C5 at a size-2 non-combined memory and `batch_size = 1`. -/
theorem sample_succeeds_iff_size_ge_two_witness :
    (memSize2.size ≤ 1 →
      memSize2.sample 1 (fun i => 0) = .error "ValueError") ∧
    (2 ≤ memSize2.size → ∃ b, memSize2.sample 1 (fun i => 0) = .ok b) :=
  sample_succeeds_iff_size_ge_two memSize2 1 (fun i => 0) (by decide)

/-- C2: with combined sampling, buffer size ≥ 2 and `batch_size ≥ 1`, index
selection succeeds with `batch_size` indices among which the newest index
`size - 1` occurs exactly once (the force-included newest member), while the
first `batch_size - 1` indices are random draws confined to `[0, size - 1)`
and hence never the newest index. -/
theorem combined_sample_newest_once (m : ReplayMemory) (batchSize : Nat)
    (draws : Nat → Nat) (hcomb : m.combined = true) (hsz : 2 ≤ m.size)
    (hbs : 1 ≤ batchSize) :
    ∃ idxs, m.sampleIdxs batchSize draws = .ok idxs ∧
      idxs.length = batchSize ∧
      idxs.count (m.size - 1) = 1 ∧
      (∀ i ∈ idxs.take (batchSize - 1), i < m.size - 1) := by
  unfold ReplayMemory.sampleIdxs randint
  rw [hcomb, if_neg (show ¬ ((m.size : Int) - 1) ≤ 0 by omega)]
  rw [eseq_ok]
  simp only [if_true]
  have htn : ((m.size : Int) - 1).toNat = m.size - 1 := by omega
  have hmem : ∀ i ∈ (List.range (batchSize - 1)).map
      (fun i => draws i % ((m.size : Int) - 1).toNat), i < m.size - 1 := by
    intro i hi
    rcases List.mem_map.mp hi with ⟨j, hj, rfl⟩
    rw [htn]
    exact Nat.mod_lt _ (by omega)
  refine ⟨_, rfl, ?_, ?_, ?_⟩
  · simp
    omega
  · rw [List.count_append]
    have h0 : ((List.range (batchSize - 1)).map
        (fun i => draws i % ((m.size : Int) - 1).toNat)).count (m.size - 1)
          = 0 := by
      rw [List.count_eq_zero]
      intro hmem2
      have := hmem _ hmem2
      omega
    rw [h0]
    simp
  · intro i hi
    apply hmem
    have hlen : ((List.range (batchSize - 1)).map
        (fun i => draws i % ((m.size : Int) - 1).toNat)).length
          = batchSize - 1 := by simp
    rw [List.take_left' hlen] at hi
    exact hi

/-- Witness for C2: combined size-2 memory, `batch_size = 2`, an oracle that
always answers 0. -/
theorem combined_sample_newest_once_witness :
    ∃ idxs, memSize2C.sampleIdxs 2 (fun i => 0) = .ok idxs ∧
      idxs.length = 2 ∧
      idxs.count (memSize2C.size - 1) = 1 ∧
      (∀ i ∈ idxs.take (2 - 1), i < memSize2C.size - 1) :=
  combined_sample_newest_once memSize2C 2 (fun i => 0) rfl (by decide)
    (by decide)

/-- C9: with combined sampling disabled and buffer size ≥ 2, every selected
index lies in `[0, size - 1)`, so the newest transition (index `size - 1`)
is never sampled. -/
theorem noncombined_sample_excludes_newest (m : ReplayMemory)
    (batchSize : Nat) (draws : Nat → Nat) (hcomb : m.combined = false)
    (hsz : 2 ≤ m.size) :
    ∃ idxs, m.sampleIdxs batchSize draws = .ok idxs ∧
      (∀ i ∈ idxs, i < m.size - 1) ∧ (m.size - 1) ∉ idxs := by
  unfold ReplayMemory.sampleIdxs randint
  rw [hcomb, if_neg (show ¬ ((m.size : Int) - 1) ≤ 0 by omega)]
  rw [eseq_ok]
  simp only [if_false, Bool.false_eq_true]
  have hmem : ∀ i ∈ (List.range batchSize).map
      (fun i => draws i % ((m.size : Int) - 1).toNat), i < m.size - 1 := by
    intro i hi
    rcases List.mem_map.mp hi with ⟨j, hj, rfl⟩
    have htn : ((m.size : Int) - 1).toNat = m.size - 1 := by omega
    rw [htn]
    exact Nat.mod_lt _ (by omega)
  refine ⟨_, rfl, hmem, ?_⟩
  intro hcontra
  have := hmem _ hcontra
  omega

/-- Witness for C9: non-combined size-2 memory, `batch_size = 3` (exceeding
the size), an oracle that cycles 0,1,2. -/
theorem noncombined_sample_excludes_newest_witness :
    ∃ idxs, memSize2.sampleIdxs 3 (fun i => i) = .ok idxs ∧
      (∀ i ∈ idxs, i < memSize2.size - 1) ∧ (memSize2.size - 1) ∉ idxs :=
  noncombined_sample_excludes_newest memSize2 3 (fun i => i) rfl (by decide)

/-! ## Class-level backend flag (memory.py lines 15-16, 34-40, 81; C10)

`RingBuffer.TORCH_BACKEND` is a class attribute: `ReplayMemory.__init__`
assigns it (`RingBuffer.TORCH_BACKEND = torch_backend`) and
`RingBuffer.sample` reads it (`if RingBuffer.TORCH_BACKEND:`), so it is a
single process-wide cell shared by every instance. -/

/-- The process-wide state: the current value of the class attribute. -/
structure GlobalEnv where
  torchBackend : Bool
  deriving Repr, DecidableEq

/-- The value `RingBuffer.sample` returns: a float torch tensor when the
class attribute is set, otherwise the raw numpy array. -/
inductive BackendData where
  | torchTensor : List ℚ → BackendData
  | npArray : List ℚ → BackendData
  deriving Repr, DecidableEq

def BackendData.isTorch : BackendData → Bool
  | torchTensor _ => true
  | npArray _ => false

/-- `RingBuffer.sample` (memory.py 34-40): gather the rows, then branch on
the CLASS attribute `RingBuffer.TORCH_BACKEND`, not on any per-instance
state. -/
def sampleData (env : GlobalEnv) (b : RingBuffer ℚ) (idxs : List Nat) :
    BackendData :=
  if env.torchBackend then .torchTensor (idxs.map b.get)
  else .npArray (idxs.map b.get)

/-- `ReplayMemory.__init__` (memory.py 75-89) including its first statement
`RingBuffer.TORCH_BACKEND = torch_backend`: the process state after it holds
the new flag no matter what it held before. -/
def mkReplayMemory (_env : GlobalEnv) (capacity : Nat)
    (combined torchBackend : Bool) : GlobalEnv × ReplayMemory :=
  ({ torchBackend := torchBackend }, ReplayMemory.init capacity combined)

/-- C10: the backend flag is process-wide shared state, not per-instance.
Build `m1` with flag `b1`, then `m2` with flag `b2 ≠ b1`: sampling `m1`'s
buffer under the resulting process state now returns data tagged by `b2`,
different from what the identical call returned before `m2` was constructed
— two memories with different backends cannot coexist. -/
theorem torch_backend_is_global (env0 : GlobalEnv) (cap1 cap2 : Nat)
    (comb1 comb2 b1 b2 : Bool) (idxs : List Nat) (hne : b1 ≠ b2) :
    (sampleData (mkReplayMemory (mkReplayMemory env0 cap1 comb1 b1).1
        cap2 comb2 b2).1
      (mkReplayMemory env0 cap1 comb1 b1).2.stateBuffer idxs).isTorch = b2 ∧
    (sampleData (mkReplayMemory (mkReplayMemory env0 cap1 comb1 b1).1
        cap2 comb2 b2).1
      (mkReplayMemory env0 cap1 comb1 b1).2.stateBuffer idxs).isTorch ≠
    (sampleData (mkReplayMemory env0 cap1 comb1 b1).1
      (mkReplayMemory env0 cap1 comb1 b1).2.stateBuffer idxs).isTorch := by
  cases b1 <;> cases b2 <;>
    simp_all [mkReplayMemory, sampleData, BackendData.isTorch]

/-- Witness for C10: first memory built with `torch_backend = True`, second
with `False`; the first memory's sample output switches to numpy. -/
theorem torch_backend_is_global_witness :
    (sampleData (mkReplayMemory (mkReplayMemory ⟨false⟩ 2 false true).1
        3 false false).1
      (mkReplayMemory ⟨false⟩ 2 false true).2.stateBuffer [0]).isTorch
        = false ∧
    (sampleData (mkReplayMemory (mkReplayMemory ⟨false⟩ 2 false true).1
        3 false false).1
      (mkReplayMemory ⟨false⟩ 2 false true).2.stateBuffer [0]).isTorch ≠
    (sampleData (mkReplayMemory ⟨false⟩ 2 false true).1
      (mkReplayMemory ⟨false⟩ 2 false true).2.stateBuffer [0]).isTorch :=
  torch_backend_is_global ⟨false⟩ 2 3 false false true false [0] (by decide)

/-! ## Copy-vs-view discipline of sampling (memory.py 24-40; C8)

Aliasing is made explicit with a heap of numpy arrays: an array value is the
list of its rows, a reference is an index into the heap, allocation appends.
`RingBuffer.add` writes rows in place through the buffer's reference
(`self._container[self._size, :] = value`); in the full branch `np.roll`
allocates a fresh array to which `_container` is rebound before the in-place
last-row write.  `RingBuffer.sample` indexes with an integer array
(`self._container[idx]`), which in numpy is advanced indexing and always
allocates a new array: the returned batch is a copy, never a view. -/

structure NpHeap where
  cells : List (List ℚ)
  deriving Repr, DecidableEq

def NpHeap.read (h : NpHeap) (r : Nat) : List ℚ := h.cells.getD r []

def NpHeap.write (h : NpHeap) (r : Nat) (v : List ℚ) : NpHeap :=
  { cells := h.cells.set r v }

def NpHeap.alloc (h : NpHeap) (v : List ℚ) : NpHeap × Nat :=
  ({ cells := h.cells ++ [v] }, h.cells.length)

/-- A `RingBuffer` whose `_container` is a heap reference. -/
structure RingBufferRef where
  capacity : Nat
  containerRef : Nat
  size : Nat
  deriving Repr, DecidableEq

/-- `RingBuffer.add` with its aliasing made explicit (error branches of the
pure model omitted: only the write footprint matters here). -/
def RingBufferRef.add (h : NpHeap) (b : RingBufferRef) (v : ℚ) :
    NpHeap × RingBufferRef :=
  if b.size < b.capacity then
    (h.write b.containerRef ((h.read b.containerRef).set b.size v),
     { b with size := b.size + 1 })
  else
    let rolled := RingBuffer.roll (h.read b.containerRef)
    let ar := h.alloc rolled
    (ar.1.write ar.2 (rolled.set (b.capacity - 1) v),
     { b with containerRef := ar.2 })

/-- `RingBuffer.sample` with its allocation made explicit: the gathered rows
form a freshly allocated array. -/
def RingBufferRef.sample (h : NpHeap) (b : RingBufferRef)
    (idxs : List Nat) : NpHeap × Nat :=
  h.alloc (idxs.map (fun i => (h.read b.containerRef).getD i 0))

structure ReplayMemoryRef where
  stateBuffer : RingBufferRef
  actionBuffer : RingBufferRef
  rewardBuffer : RingBufferRef
  nextStateBuffer : RingBufferRef
  terminalBuffer : RingBufferRef
  deriving Repr, DecidableEq

/-- `ReplayMemory.push`: five in-place adds threading the heap. -/
def ReplayMemoryRef.push (h : NpHeap) (m : ReplayMemoryRef)
    (s a rew ns term : ℚ) : NpHeap × ReplayMemoryRef :=
  ((RingBufferRef.add (RingBufferRef.add (RingBufferRef.add
      (RingBufferRef.add (RingBufferRef.add h m.stateBuffer s).1
        m.actionBuffer a).1 m.rewardBuffer rew).1
      m.nextStateBuffer ns).1 m.terminalBuffer term).1,
   { stateBuffer := (RingBufferRef.add h m.stateBuffer s).2,
     actionBuffer := (RingBufferRef.add (RingBufferRef.add h
       m.stateBuffer s).1 m.actionBuffer a).2,
     rewardBuffer := (RingBufferRef.add (RingBufferRef.add
       (RingBufferRef.add h m.stateBuffer s).1 m.actionBuffer a).1
       m.rewardBuffer rew).2,
     nextStateBuffer := (RingBufferRef.add (RingBufferRef.add
       (RingBufferRef.add (RingBufferRef.add h m.stateBuffer s).1
       m.actionBuffer a).1 m.rewardBuffer rew).1 m.nextStateBuffer ns).2,
     terminalBuffer := (RingBufferRef.add (RingBufferRef.add
       (RingBufferRef.add (RingBufferRef.add (RingBufferRef.add h
       m.stateBuffer s).1 m.actionBuffer a).1 m.rewardBuffer rew).1
       m.nextStateBuffer ns).1 m.terminalBuffer term).2 })

/-- The references of the five field arrays of a sampled batch. -/
structure BatchRef where
  state : Nat
  action : Nat
  reward : Nat
  nextState : Nat
  done : Nat
  deriving Repr, DecidableEq

/-- `ReplayMemory.sample`: gather each field into a fresh array. -/
def ReplayMemoryRef.sampleBatch (h : NpHeap) (m : ReplayMemoryRef)
    (idxs : List Nat) : NpHeap × BatchRef :=
  let x1 := RingBufferRef.sample h m.stateBuffer idxs
  let x2 := RingBufferRef.sample x1.1 m.actionBuffer idxs
  let x3 := RingBufferRef.sample x2.1 m.rewardBuffer idxs
  let x4 := RingBufferRef.sample x3.1 m.nextStateBuffer idxs
  let x5 := RingBufferRef.sample x4.1 m.terminalBuffer idxs
  (x5.1, { state := x1.2, action := x2.2, reward := x3.2,
           nextState := x4.2, done := x5.2 })

/-- A sequence of `push` calls. -/
def ReplayMemoryRef.pushMany (h : NpHeap) (m : ReplayMemoryRef)
    (ts : List (ℚ × ℚ × ℚ × ℚ × ℚ)) : NpHeap × ReplayMemoryRef :=
  match ts with
  | [] => (h, m)
  | t :: rest =>
      ReplayMemoryRef.pushMany
        (ReplayMemoryRef.push h m t.1 t.2.1 t.2.2.1 t.2.2.2.1 t.2.2.2.2).1
        (ReplayMemoryRef.push h m t.1 t.2.1 t.2.2.1 t.2.2.2.1 t.2.2.2.2).2
        rest

theorem read_write_ne (h : NpHeap) (r1 r2 : Nat) (v : List ℚ)
    (hne : r1 ≠ r2) : (h.write r1 v).read r2 = h.read r2 := by
  unfold NpHeap.write NpHeap.read
  rw [getD_eq_getElem? (h.cells.set r1 v), getD_eq_getElem? h.cells,
      List.getElem?_set_ne hne]

theorem read_alloc_lt (h : NpHeap) (v : List ℚ) (r : Nat)
    (hr : r < h.cells.length) : (h.alloc v).1.read r = h.read r := by
  unfold NpHeap.alloc NpHeap.read
  rw [getD_eq_getElem? (h.cells ++ [v]), getD_eq_getElem? h.cells,
      List.getElem?_append_left hr]

theorem addRef_spec (h : NpHeap) (b : RingBufferRef) (v : ℚ) (r : Nat)
    (hr : r < h.cells.length) (hne : r ≠ b.containerRef) :
    (RingBufferRef.add h b v).1.read r = h.read r ∧
    h.cells.length ≤ (RingBufferRef.add h b v).1.cells.length ∧
    r ≠ (RingBufferRef.add h b v).2.containerRef := by
  unfold RingBufferRef.add
  by_cases hc : b.size < b.capacity
  · rw [if_pos hc]
    refine ⟨read_write_ne h _ r _ (Ne.symm hne), ?_, hne⟩
    unfold NpHeap.write
    simp
  · rw [if_neg hc]
    have hfresh : (h.alloc (RingBuffer.roll (h.read b.containerRef))).2 =
        h.cells.length := rfl
    refine ⟨?_, ?_, ?_⟩
    · show ((h.alloc _).1.write (h.alloc _).2 _).read r = h.read r
      rw [read_write_ne _ _ _ _ (by rw [hfresh]; omega),
          read_alloc_lt h _ r hr]
    · show h.cells.length ≤ ((h.alloc _).1.write (h.alloc _).2 _).cells.length
      unfold NpHeap.alloc NpHeap.write
      simp
    · show r ≠ (h.alloc (RingBuffer.roll (h.read b.containerRef))).2
      rw [hfresh]
      omega

theorem pushRef_spec (h : NpHeap) (m : ReplayMemoryRef) (s a rew ns term : ℚ)
    (r : Nat) (hr : r < h.cells.length)
    (h1 : r ≠ m.stateBuffer.containerRef)
    (h2 : r ≠ m.actionBuffer.containerRef)
    (h3 : r ≠ m.rewardBuffer.containerRef)
    (h4 : r ≠ m.nextStateBuffer.containerRef)
    (h5 : r ≠ m.terminalBuffer.containerRef) :
    (ReplayMemoryRef.push h m s a rew ns term).1.read r = h.read r ∧
    h.cells.length ≤ (ReplayMemoryRef.push h m s a rew ns term).1.cells.length ∧
    r ≠ (ReplayMemoryRef.push h m s a rew ns term).2.stateBuffer.containerRef ∧
    r ≠ (ReplayMemoryRef.push h m s a rew ns term).2.actionBuffer.containerRef ∧
    r ≠ (ReplayMemoryRef.push h m s a rew ns term).2.rewardBuffer.containerRef ∧
    r ≠ (ReplayMemoryRef.push h m s a rew ns term).2.nextStateBuffer.containerRef ∧
    r ≠ (ReplayMemoryRef.push h m s a rew ns term).2.terminalBuffer.containerRef := by
  obtain ⟨e1, l1, c1⟩ := addRef_spec h m.stateBuffer s r hr h1
  obtain ⟨e2, l2, c2⟩ := addRef_spec (RingBufferRef.add h m.stateBuffer s).1
    m.actionBuffer a r (by omega) h2
  obtain ⟨e3, l3, c3⟩ := addRef_spec
    (RingBufferRef.add (RingBufferRef.add h m.stateBuffer s).1
      m.actionBuffer a).1 m.rewardBuffer rew r (by omega) h3
  obtain ⟨e4, l4, c4⟩ := addRef_spec
    (RingBufferRef.add (RingBufferRef.add (RingBufferRef.add h
      m.stateBuffer s).1 m.actionBuffer a).1 m.rewardBuffer rew).1
    m.nextStateBuffer ns r (by omega) h4
  obtain ⟨e5, l5, c5⟩ := addRef_spec
    (RingBufferRef.add (RingBufferRef.add (RingBufferRef.add
      (RingBufferRef.add h m.stateBuffer s).1 m.actionBuffer a).1
      m.rewardBuffer rew).1 m.nextStateBuffer ns).1
    m.terminalBuffer term r (by omega) h5
  refine ⟨?_, ?_, c1, c2, c3, c4, c5⟩
  · show (RingBufferRef.add (RingBufferRef.add (RingBufferRef.add
        (RingBufferRef.add (RingBufferRef.add h m.stateBuffer s).1
        m.actionBuffer a).1 m.rewardBuffer rew).1 m.nextStateBuffer ns).1
        m.terminalBuffer term).1.read r = h.read r
    rw [e5, e4, e3, e2, e1]
  · show h.cells.length ≤ (RingBufferRef.add (RingBufferRef.add
        (RingBufferRef.add (RingBufferRef.add (RingBufferRef.add h
        m.stateBuffer s).1 m.actionBuffer a).1 m.rewardBuffer rew).1
        m.nextStateBuffer ns).1 m.terminalBuffer term).1.cells.length
    omega

theorem pushMany_preserves (ts : List (ℚ × ℚ × ℚ × ℚ × ℚ)) :
    ∀ (h : NpHeap) (m : ReplayMemoryRef) (r : Nat),
    r < h.cells.length →
    r ≠ m.stateBuffer.containerRef →
    r ≠ m.actionBuffer.containerRef →
    r ≠ m.rewardBuffer.containerRef →
    r ≠ m.nextStateBuffer.containerRef →
    r ≠ m.terminalBuffer.containerRef →
    (ReplayMemoryRef.pushMany h m ts).1.read r = h.read r := by
  induction ts with
  | nil => intro h m r _ _ _ _ _ _; rfl
  | cons t rest ih =>
      intro h m r hr h1 h2 h3 h4 h5
      obtain ⟨e, l, c1, c2, c3, c4, c5⟩ :=
        pushRef_spec h m t.1 t.2.1 t.2.2.1 t.2.2.2.1 t.2.2.2.2 r hr
          h1 h2 h3 h4 h5
      unfold ReplayMemoryRef.pushMany
      rw [ih _ _ r (by omega) c1 c2 c3 c4 c5, e]

theorem sampleBatch_facts (h : NpHeap) (m : ReplayMemoryRef)
    (idxs : List Nat) :
    (ReplayMemoryRef.sampleBatch h m idxs).2.state = h.cells.length ∧
    (ReplayMemoryRef.sampleBatch h m idxs).2.action = h.cells.length + 1 ∧
    (ReplayMemoryRef.sampleBatch h m idxs).2.reward = h.cells.length + 2 ∧
    (ReplayMemoryRef.sampleBatch h m idxs).2.nextState = h.cells.length + 3 ∧
    (ReplayMemoryRef.sampleBatch h m idxs).2.done = h.cells.length + 4 ∧
    (ReplayMemoryRef.sampleBatch h m idxs).1.cells.length =
      h.cells.length + 5 := by
  unfold ReplayMemoryRef.sampleBatch RingBufferRef.sample NpHeap.alloc
  simp

/-- C8: a batch returned by `sample` is an independent copy, not a view.
Whatever sequence of `push` calls is performed afterwards, every one of the
five field arrays of the previously returned batch reads back unchanged
(the pushes write only through the buffers' own container references, which
are distinct from the freshly allocated batch arrays). -/
theorem sampled_batch_immutable (h : NpHeap) (m : ReplayMemoryRef)
    (idxs : List Nat) (ts : List (ℚ × ℚ × ℚ × ℚ × ℚ))
    (hs : m.stateBuffer.containerRef < h.cells.length)
    (ha : m.actionBuffer.containerRef < h.cells.length)
    (hw : m.rewardBuffer.containerRef < h.cells.length)
    (hx : m.nextStateBuffer.containerRef < h.cells.length)
    (ht : m.terminalBuffer.containerRef < h.cells.length) :
    (ReplayMemoryRef.pushMany (ReplayMemoryRef.sampleBatch h m idxs).1 m
        ts).1.read (ReplayMemoryRef.sampleBatch h m idxs).2.state =
      (ReplayMemoryRef.sampleBatch h m idxs).1.read
        (ReplayMemoryRef.sampleBatch h m idxs).2.state ∧
    (ReplayMemoryRef.pushMany (ReplayMemoryRef.sampleBatch h m idxs).1 m
        ts).1.read (ReplayMemoryRef.sampleBatch h m idxs).2.action =
      (ReplayMemoryRef.sampleBatch h m idxs).1.read
        (ReplayMemoryRef.sampleBatch h m idxs).2.action ∧
    (ReplayMemoryRef.pushMany (ReplayMemoryRef.sampleBatch h m idxs).1 m
        ts).1.read (ReplayMemoryRef.sampleBatch h m idxs).2.reward =
      (ReplayMemoryRef.sampleBatch h m idxs).1.read
        (ReplayMemoryRef.sampleBatch h m idxs).2.reward ∧
    (ReplayMemoryRef.pushMany (ReplayMemoryRef.sampleBatch h m idxs).1 m
        ts).1.read (ReplayMemoryRef.sampleBatch h m idxs).2.nextState =
      (ReplayMemoryRef.sampleBatch h m idxs).1.read
        (ReplayMemoryRef.sampleBatch h m idxs).2.nextState ∧
    (ReplayMemoryRef.pushMany (ReplayMemoryRef.sampleBatch h m idxs).1 m
        ts).1.read (ReplayMemoryRef.sampleBatch h m idxs).2.done =
      (ReplayMemoryRef.sampleBatch h m idxs).1.read
        (ReplayMemoryRef.sampleBatch h m idxs).2.done := by
  obtain ⟨f1, f2, f3, f4, f5, flen⟩ := sampleBatch_facts h m idxs
  refine ⟨?_, ?_, ?_, ?_, ?_⟩ <;>
    [rw [f1]; rw [f2]; rw [f3]; rw [f4]; rw [f5]] <;>
    exact pushMany_preserves ts _ m _ (by omega) (by omega) (by omega)
      (by omega) (by omega) (by omega)

/-- Witness for C8: one-cell-per-buffer heap, a two-push suffix. -/
theorem sampled_batch_immutable_witness :
    (ReplayMemoryRef.pushMany
        (ReplayMemoryRef.sampleBatch ⟨[[1], [2], [3], [4], [5]]⟩
          ⟨⟨2, 0, 1⟩, ⟨2, 1, 1⟩, ⟨2, 2, 1⟩, ⟨2, 3, 1⟩, ⟨2, 4, 1⟩⟩ [0]).1
        ⟨⟨2, 0, 1⟩, ⟨2, 1, 1⟩, ⟨2, 2, 1⟩, ⟨2, 3, 1⟩, ⟨2, 4, 1⟩⟩
        [(9, 9, 9, 9, 9), (8, 8, 8, 8, 8)]).1.read
      (ReplayMemoryRef.sampleBatch ⟨[[1], [2], [3], [4], [5]]⟩
        ⟨⟨2, 0, 1⟩, ⟨2, 1, 1⟩, ⟨2, 2, 1⟩, ⟨2, 3, 1⟩, ⟨2, 4, 1⟩⟩ [0]).2.state =
    (ReplayMemoryRef.sampleBatch ⟨[[1], [2], [3], [4], [5]]⟩
        ⟨⟨2, 0, 1⟩, ⟨2, 1, 1⟩, ⟨2, 2, 1⟩, ⟨2, 3, 1⟩, ⟨2, 4, 1⟩⟩ [0]).1.read
      (ReplayMemoryRef.sampleBatch ⟨[[1], [2], [3], [4], [5]]⟩
        ⟨⟨2, 0, 1⟩, ⟨2, 1, 1⟩, ⟨2, 2, 1⟩, ⟨2, 3, 1⟩, ⟨2, 4, 1⟩⟩ [0]).2.state :=
  (sampled_batch_immutable ⟨[[1], [2], [3], [4], [5]]⟩
    ⟨⟨2, 0, 1⟩, ⟨2, 1, 1⟩, ⟨2, 2, 1⟩, ⟨2, 3, 1⟩, ⟨2, 4, 1⟩⟩ [0]
    [(9, 9, 9, 9, 9), (8, 8, 8, 8, 8)]
    (by decide) (by decide) (by decide) (by decide) (by decide)).1

/-! ## Categorical distributional projection (dqn.py lines 139-177; C4)

One batch row of `_compute_categorical_loss`, over exact rationals.  The
support has `m` atoms `z_j = v_min + j·Δz` with
`Δz = (v_max - v_min)/(m - 1)`; for each atom the shifted point is clamped
to `[v_min, v_max]`, mapped to grid coordinates `bj`, and its probability
split between `⌊bj⌋` and `⌈bj⌉` by `index_add_`. -/

/-- `torch.clamp(x, lo, hi)`. -/
def clampQ (x lo hi : ℚ) : ℚ := max lo (min x hi)

/-- Modelled from the spec: `BaseOffPolicy._td_target` lives in
`yadrl/agents/base.py`, which is not among the sources (only its callers
are); the spec gives `Tz = clamp(reward + mask·discount·z, v_min, v_max)`,
whose clamp is applied by the caller (dqn.py 158-159), so the target itself
is `reward + mask·discount·z`. -/
def tdTarget (reward mask discount z : ℚ) : ℚ := reward + mask * discount * z

/-- `self._z_delta = (v_max - v_min) / (self._atoms_dim - 1)` (dqn.py 59). -/
def zDelta (vmin vmax : ℚ) (m : Nat) : ℚ := (vmax - vmin) / ((m : ℚ) - 1)

/-- `torch.linspace(v_min, v_max, atoms_dim)`: atom `j` is `v_min + j·Δz`. -/
def zAtom (vmin vmax : ℚ) (m j : Nat) : ℚ :=
  vmin + (j : ℚ) * zDelta vmin vmax m

/-- `next_atoms = clamp(td_target(...), v_min, v_max)`;
`bj = (next_atoms - v_min) / z_delta` (dqn.py 158-161). -/
def bjOf (vmin vmax : ℚ) (m : Nat) (reward mask discount : ℚ) (j : Nat) : ℚ :=
  (clampQ (tdTarget reward mask discount (zAtom vmin vmax m j)) vmin vmax
    - vmin) / zDelta vmin vmax m

/-- `delta_l_prob = next_probs * (u + (u == l).float() - bj)` with
`l = bj.floor()`, `u = bj.ceil()` (dqn.py 162-165). -/
def deltaL (p bj : ℚ) : ℚ :=
  p * ((⌈bj⌉ : ℚ) + (if ⌈bj⌉ = ⌊bj⌋ then 1 else 0) - bj)

/-- `delta_u_prob = next_probs * (bj - l)` (dqn.py 166). -/
def deltaU (p bj : ℚ) : ℚ := p * (bj - (⌊bj⌋ : ℚ))

/-- `target_probs[i].index_add_(0, idx, delta)`: accumulate `v` at row
`idx`. -/
def indexAdd (t : List ℚ) (i : Nat) (v : ℚ) : List ℚ :=
  t.set i (t.getD i 0 + v)

/-- The two `index_add_` calls of one atom `j` (dqn.py 168-170). -/
def projectStep (probs : List ℚ) (bj : Nat → ℚ) (tgt : List ℚ) (j : Nat) :
    List ℚ :=
  indexAdd (indexAdd tgt (⌊bj j⌋).toNat (deltaL (probs.getD j 0) (bj j)))
    (⌈bj j⌉).toNat (deltaU (probs.getD j 0) (bj j))

/-- One batch row of the projection: `target_probs = zeros`, then the
`index_add_` loop over all atoms. -/
def projectRow (m : Nat) (probs : List ℚ) (bj : Nat → ℚ) : List ℚ :=
  (List.range m).foldl (projectStep probs bj) (List.replicate m 0)

theorem floor_eq_of_ceil_eq_floor (b : ℚ) (hb : ⌈b⌉ = ⌊b⌋) :
    b = (⌊b⌋ : ℚ) := by
  have h1 := Int.floor_le b
  have h2 := Int.le_ceil b
  rw [hb] at h2
  linarith

theorem deltaL_add_deltaU (p b : ℚ) : deltaL p b + deltaU p b = p := by
  unfold deltaL deltaU
  by_cases hb : ⌈b⌉ = ⌊b⌋
  · have hint := floor_eq_of_ceil_eq_floor b hb
    rw [if_pos hb, hb, ← hint]
    ring
  · have h1 := Int.ceil_le_floor_add_one b
    have h2 := Int.floor_le_ceil b
    have hcf : ⌈b⌉ = ⌊b⌋ + 1 := by omega
    rw [if_neg hb, hcf]
    push_cast
    ring

theorem delta_boundary (p b : ℚ) (hb : ⌈b⌉ = ⌊b⌋) :
    deltaL p b = p ∧ deltaU p b = 0 := by
  have hint := floor_eq_of_ceil_eq_floor b hb
  unfold deltaL deltaU
  rw [if_pos hb, hb, ← hint]
  constructor <;> ring

theorem bjOf_bounds (vmin vmax reward mask discount : ℚ) (m : Nat)
    (hm : 2 ≤ m) (hv : vmin < vmax) (j : Nat) :
    0 ≤ bjOf vmin vmax m reward mask discount j ∧
    bjOf vmin vmax m reward mask discount j ≤ (m : ℚ) - 1 := by
  have hm1 : (1 : ℚ) ≤ (m : ℚ) - 1 := by
    have : (2 : ℚ) ≤ (m : ℚ) := by exact_mod_cast hm
    linarith
  have hdpos : (0 : ℚ) < zDelta vmin vmax m := by
    unfold zDelta
    apply div_pos (by linarith) (by linarith)
  unfold bjOf clampQ
  constructor
  · apply div_nonneg _ (le_of_lt hdpos)
    have := le_max_left vmin
      (min (tdTarget reward mask discount (zAtom vmin vmax m j)) vmax)
    linarith
  · rw [div_le_iff₀ hdpos]
    have hle : max vmin
        (min (tdTarget reward mask discount (zAtom vmin vmax m j)) vmax)
          ≤ vmax := by
      apply max_le (le_of_lt hv) (min_le_right _ _)
    have hmul : ((m : ℚ) - 1) * zDelta vmin vmax m = vmax - vmin := by
      unfold zDelta
      field_simp
    rw [hmul]
    linarith

theorem indexAdd_length (t : List ℚ) (i : Nat) (v : ℚ) :
    (indexAdd t i v).length = t.length := by
  unfold indexAdd
  simp

theorem indexAdd_sum (t : List ℚ) (i : Nat) (v : ℚ) (hi : i < t.length) :
    (indexAdd t i v).sum = t.sum + v := by
  unfold indexAdd
  induction t generalizing i with
  | nil => simp at hi
  | cons a tl ih =>
      cases i with
      | zero =>
          simp [List.set]
          ring
      | succ k =>
          have hk : k < tl.length := by simpa using hi
          simp only [List.set, List.getD_cons_succ, List.sum_cons]
          rw [ih k hk]
          ring

theorem projectRow_fold (probs : List ℚ) (bj : Nat → ℚ) (js : List Nat) :
    ∀ t0 : List ℚ,
    (∀ j ∈ js, (⌊bj j⌋).toNat < t0.length ∧ (⌈bj j⌉).toNat < t0.length) →
    (js.foldl (projectStep probs bj) t0).sum =
      t0.sum + (js.map (fun j => deltaL (probs.getD j 0) (bj j) +
        deltaU (probs.getD j 0) (bj j))).sum ∧
    (js.foldl (projectStep probs bj) t0).length = t0.length := by
  induction js with
  | nil => intro t0 _; simp
  | cons j rest ih =>
      intro t0 hvalid
      have hj := hvalid j (List.mem_cons_self j rest)
      have hl1 : (indexAdd t0 (⌊bj j⌋).toNat
          (deltaL (probs.getD j 0) (bj j))).length = t0.length :=
        indexAdd_length _ _ _
      have hstep_len : (projectStep probs bj t0 j).length = t0.length := by
        unfold projectStep
        rw [indexAdd_length, indexAdd_length]
      have hstep_sum : (projectStep probs bj t0 j).sum =
          t0.sum + (deltaL (probs.getD j 0) (bj j) +
            deltaU (probs.getD j 0) (bj j)) := by
        unfold projectStep
        rw [indexAdd_sum _ _ _ (by rw [hl1]; exact hj.2),
            indexAdd_sum _ _ _ hj.1]
        ring
      obtain ⟨ihsum, ihlen⟩ := ih (projectStep probs bj t0 j)
        (fun x hx => by rw [hstep_len]; exact hvalid x (List.mem_cons_of_mem j hx))
      refine ⟨?_, ?_⟩
      · simp only [List.foldl_cons, List.map_cons, List.sum_cons]
        rw [ihsum, hstep_sum]
        ring
      · simp only [List.foldl_cons]
        rw [ihlen, hstep_len]

theorem sum_map_range_getD (l : List ℚ) :
    ((List.range l.length).map (fun j => l.getD j 0)).sum = l.sum := by
  induction l using List.reverseRecOn with
  | nil => simp
  | append_singleton xs x ih =>
      rw [List.length_append, List.length_cons, List.length_nil,
          List.range_succ, List.map_append, List.map_cons, List.map_nil,
          List.sum_append]
      have hmap : (List.range xs.length).map
          (fun j => (xs ++ [x]).getD j 0) =
            (List.range xs.length).map (fun j => xs.getD j 0) := by
        apply List.map_congr_left
        intro j hj
        have hjl : j < xs.length := List.mem_range.mp hj
        rw [getD_eq_getElem?, getD_eq_getElem? xs,
            List.getElem?_append_left hjl]
      have hget : (xs ++ [x]).getD xs.length 0 = x := by
        rw [getD_eq_getElem?, List.getElem?_append_right (le_refl _)]
        simp
      rw [hmap, ih, hget]
      simp

/-- C4: per-row mass conservation of the categorical projection.  For every
support `[v_min, v_max]` with `m ≥ 2` atoms and every reward/mask/discount,
(1) the `index_add_` loop redistributes exactly the input mass:
`(projectRow).sum = probs.sum`; (2) for every atom the weight sent to the
floor index plus the weight sent to the ceil index equals the atom's
probability, `p·(u + (u==l) - bj) + p·(bj - l) = p`; and (3) in the boundary
case `u == l` (a projected point landing exactly on a grid point) all of the
atom's mass goes to that single grid point: `delta_l = p` and
`delta_u = 0`. -/
theorem categorical_projection_mass (vmin vmax reward mask discount : ℚ)
    (m : Nat) (probs : List ℚ) (hm : 2 ≤ m) (hv : vmin < vmax)
    (hlen : probs.length = m) :
    (projectRow m probs (bjOf vmin vmax m reward mask discount)).sum
        = probs.sum ∧
    (∀ j, deltaL (probs.getD j 0) (bjOf vmin vmax m reward mask discount j) +
        deltaU (probs.getD j 0) (bjOf vmin vmax m reward mask discount j) =
          probs.getD j 0) ∧
    (∀ j, ⌈bjOf vmin vmax m reward mask discount j⌉ =
        ⌊bjOf vmin vmax m reward mask discount j⌋ →
      deltaL (probs.getD j 0) (bjOf vmin vmax m reward mask discount j) =
          probs.getD j 0 ∧
      deltaU (probs.getD j 0) (bjOf vmin vmax m reward mask discount j)
          = 0) := by
  refine ⟨?_, fun j => deltaL_add_deltaU _ _, fun j => delta_boundary _ _⟩
  have hvalid : ∀ j ∈ List.range m,
      (⌊bjOf vmin vmax m reward mask discount j⌋).toNat <
        (List.replicate m (0 : ℚ)).length ∧
      (⌈bjOf vmin vmax m reward mask discount j⌉).toNat <
        (List.replicate m (0 : ℚ)).length := by
    intro j _
    obtain ⟨hlo, hhi⟩ := bjOf_bounds vmin vmax reward mask discount m hm hv j
    have hfl : (0 : ℤ) ≤ ⌊bjOf vmin vmax m reward mask discount j⌋ :=
      Int.floor_nonneg.mpr hlo
    have hfc : ⌊bjOf vmin vmax m reward mask discount j⌋ ≤
        ⌈bjOf vmin vmax m reward mask discount j⌉ :=
      Int.floor_le_ceil _
    have hcu : ⌈bjOf vmin vmax m reward mask discount j⌉ ≤ (m : ℤ) - 1 := by
      apply Int.ceil_le.mpr
      push_cast
      linarith
    have hm2 : 2 ≤ m := hm
    rw [List.length_replicate]
    omega
  obtain ⟨hsum, _⟩ := projectRow_fold probs
    (bjOf vmin vmax m reward mask discount) (List.range m)
    (List.replicate m 0) hvalid
  unfold projectRow
  rw [hsum]
  have hmap : (List.range m).map (fun j =>
      deltaL (probs.getD j 0) (bjOf vmin vmax m reward mask discount j) +
      deltaU (probs.getD j 0) (bjOf vmin vmax m reward mask discount j)) =
        (List.range m).map (fun j => probs.getD j 0) := by
    apply List.map_congr_left
    intro j _
    exact deltaL_add_deltaU _ _
  rw [hmap, ← hlen, sum_map_range_getD]
  simp

/-- Witness for C4: `v_min = -1`, `v_max = 1`, `m = 3` atoms,
`reward = 1/2`, `mask = 1`, `discount = 1/2`, a uniform row. -/
theorem categorical_projection_mass_witness :
    (projectRow 3 [1/3, 1/3, 1/3] (bjOf (-1) 1 3 (1/2) 1 (1/2))).sum
        = ([1/3, 1/3, 1/3] : List ℚ).sum ∧
    (∀ j, deltaL (([1/3, 1/3, 1/3] : List ℚ).getD j 0)
        (bjOf (-1) 1 3 (1/2) 1 (1/2) j) +
      deltaU (([1/3, 1/3, 1/3] : List ℚ).getD j 0)
        (bjOf (-1) 1 3 (1/2) 1 (1/2) j) =
          ([1/3, 1/3, 1/3] : List ℚ).getD j 0) ∧
    (∀ j, ⌈bjOf (-1) 1 3 (1/2) 1 (1/2) j⌉ = ⌊bjOf (-1) 1 3 (1/2) 1 (1/2) j⌋ →
      deltaL (([1/3, 1/3, 1/3] : List ℚ).getD j 0)
          (bjOf (-1) 1 3 (1/2) 1 (1/2) j) =
            ([1/3, 1/3, 1/3] : List ℚ).getD j 0 ∧
      deltaU (([1/3, 1/3, 1/3] : List ℚ).getD j 0)
          (bjOf (-1) 1 3 (1/2) 1 (1/2) j) = 0) :=
  categorical_projection_mass (-1) 1 (1/2) 1 (1/2) 3 [1/3, 1/3, 1/3]
    (by norm_num) (by norm_num) (by norm_num)

end Yadrl
